import Mathlib

/-!
Verification of the 0/1 knapsack solver in `src/main.py`: a branch-and-bound
search (`branch_and_bound`) and its exhaustive oracle (`brute_force`), sharing
the evaluator functions `compute_value` / `compute_cost` and the branching rule
`expand_branches`.

Embedding conventions:
* Items are pairs `(value, cost) : Int × Int`; the item sequence is a list.
* An assignment entry is tri-state, mirroring Python's `None` / `0` / `1`:
  `Entry.unset` / `Entry.excluded` / `Entry.included`.
* The `while branches:` loop is modelled by the structurally recursive
  `bnbRun` with a fuel parameter; `branch_and_bound` supplies fuel
  `3 ^ (n + 1)`, which is proved sufficient (the run-out-of-fuel branch is
  never taken; see the termination theorems below).
* Python's `assert` is modelled by returning `Option`: `none` means the
  assertion fired (an `AssertionError`), `some r` is a normal return of `r`.
-/

/-- Tri-state assignment entry: Python `None` (unset), `0` (excluded),
`1` (included). -/
inductive Entry
  | unset
  | excluded
  | included
deriving DecidableEq

/-- Python `compute_value(solution, options)`:
`sum([options[i][0] for i in range(len(solution)) if solution[i] == 1])`.
All call sites pass lists of equal length; positions beyond the shorter list
contribute nothing. -/
def compute_value : List Entry → List (Int × Int) → Int
  | Entry.included :: s, o :: opts => o.1 + compute_value s opts
  | _ :: s, _ :: opts => compute_value s opts
  | _, _ => 0

/-- Python `compute_cost(solution, options)`:
`sum([options[i][1] for i in range(len(solution)) if solution[i] == 1])`. -/
def compute_cost : List Entry → List (Int × Int) → Int
  | Entry.included :: s, o :: opts => o.2 + compute_cost s opts
  | _ :: s, _ :: opts => compute_cost s opts
  | _, _ => 0

/-- Python `expand_branches(solution)`: if the assignment has an unset entry,
return the two copies with the first unset index (`solution.index(None)`) set
to excluded resp. included; otherwise return the empty list. -/
def expand_branches (solution : List Entry) : List (List Entry) :=
  if Entry.unset ∈ solution then
    [solution.set (solution.findIdx (· == Entry.unset)) Entry.excluded,
     solution.set (solution.findIdx (· == Entry.unset)) Entry.included]
  else
    []

/-- Number of unset entries of an assignment. -/
def unsetCount (solution : List Entry) : Nat :=
  solution.countP (· == Entry.unset)

/-- Termination measure of the frontier: each pending assignment with `u`
unset entries weighs `3 ^ u`. -/
def branchMeasure (branches : List (List Entry)) : Nat :=
  (branches.map fun b => 3 ^ unsetCount b).sum

/-- The `while branches:` loop of `branch_and_bound`, fuelled.  One step pops
the front assignment, computes its cost and value, and, when the cost is
within the bound, records it if it beats the best found so far (higher value,
or equal value and strictly lower cost) and appends its expansions to the back
of the frontier.  With fuel at least `branchMeasure branches` the fuel-exhausted
branch is never taken. -/
def bnbRun (options : List (Int × Int)) (bound : Int) :
    Nat → List (List Entry) → List Entry × Int × Int → List Entry × Int × Int
  | _, [], best => best
  | 0, _ :: _, best => best
  | fuel + 1, solution :: rest, best =>
    if compute_cost solution options ≤ bound then
      bnbRun options bound fuel (rest ++ expand_branches solution)
        (if compute_value solution options > best.2.1 ∨
            (compute_value solution options = best.2.1 ∧
              compute_cost solution options < best.2.2) then
          (solution, compute_value solution options, compute_cost solution options)
        else best)
    else
      bnbRun options bound fuel rest best

/-- Python's final `[x if x is not None else 0 for x in best_solution[0]]`:
remaining unset entries are mapped to excluded. -/
def zeroFill (solution : List Entry) : List Entry :=
  solution.map fun e => if e = Entry.unset then Entry.excluded else e

/-- Python `branch_and_bound(options, bound)`.  Returns `none` when the final
`assert(best_solution[2] <= bound)` fires. -/
def branch_and_bound (options : List (Int × Int)) (bound : Int) :
    Option (List Entry × Int × Int) :=
  let best := bnbRun options bound (3 ^ (options.length + 1))
    (expand_branches (List.replicate options.length Entry.unset))
    (List.replicate options.length Entry.excluded, 0, 0)
  if best.2.2 ≤ bound then
    some (zeroFill best.1, best.2.1, best.2.2)
  else
    none

/-- Python `itertools.product(range(2), repeat=n)` as complete assignments,
in the same order (first coordinate varies slowest, `0` before `1`). -/
def all_assignments : Nat → List (List Entry)
  | 0 => [[]]
  | n + 1 =>
      ((all_assignments n).map fun a => Entry.excluded :: a) ++
      ((all_assignments n).map fun a => Entry.included :: a)

/-- One iteration of the `brute_force` loop: the candidate replaces the best
found so far iff `(cost <= bound and value > best[1]) or
(value == best[1] and cost < best[2])`.  The second disjunct does not re-test
feasibility. -/
def bfStep (options : List (Int × Int)) (bound : Int)
    (best : List Entry × Int × Int) (solution : List Entry) :
    List Entry × Int × Int :=
  if (compute_cost solution options ≤ bound ∧
        compute_value solution options > best.2.1) ∨
      (compute_value solution options = best.2.1 ∧
        compute_cost solution options < best.2.2) then
    (solution, compute_value solution options, compute_cost solution options)
  else
    best

/-- Python `brute_force(options, bound)`.  Returns `none` when the final
`assert(best_solution[2] <= bound)` fires. -/
def brute_force (options : List (Int × Int)) (bound : Int) :
    Option (List Entry × Int × Int) :=
  let best := (all_assignments options.length).foldl (bfStep options bound)
    (List.replicate options.length Entry.excluded, 0, 0)
  if best.2.2 ≤ bound then some best else none

/-- Levels of the branch-and-bound decision tree: level `0` is the fully unset
root, level `k + 1` collects the expansions of level `k`. -/
def branch_levels (n : Nat) : Nat → List (List Entry)
  | 0 => [List.replicate n Entry.unset]
  | k + 1 => (branch_levels n k).flatMap expand_branches

/-- `extendsTo s a`: the (possibly partial) assignment `s` is refined by `a`,
pointwise: wherever `s` is decided, `a` agrees. -/
def extendsTo : List Entry → List Entry → Prop
  | [], [] => True
  | e :: s, f :: a => (e = Entry.unset ∨ f = e) ∧ extendsTo s a
  | _, _ => False

/-- `beats v c va ca`: the candidate scoring `(v, c)` is at least as good as
one scoring `(va, ca)` under the solvers' order (higher value first, then
lower cost). -/
def beats (v c va ca : Int) : Prop :=
  va < v ∨ (va = v ∧ c ≤ ca)

/-- Specification-side optimality of a returned triple `r = (assignment,
value, cost)`, as the spec words it: a complete assignment of the right
length, whose value and cost are the evaluator's outputs on it, feasible,
of maximum value among all feasible complete assignments, and of minimal
cost among those attaining that value. -/
def isOptimalResult (options : List (Int × Int)) (bound : Int)
    (r : List Entry × Int × Int) : Prop :=
  r.1.length = options.length ∧
  Entry.unset ∉ r.1 ∧
  r.2.1 = compute_value r.1 options ∧
  r.2.2 = compute_cost r.1 options ∧
  r.2.2 ≤ bound ∧
  (∀ a : List Entry, a.length = options.length → Entry.unset ∉ a →
    compute_cost a options ≤ bound → compute_value a options ≤ r.2.1) ∧
  (∀ a : List Entry, a.length = options.length → Entry.unset ∉ a →
    compute_cost a options ≤ bound → compute_value a options = r.2.1 →
    r.2.2 ≤ compute_cost a options)

/-! ### Evaluator lemmas -/

theorem compute_value_cons (e : Entry) (s : List Entry) (o : Int × Int)
    (opts : List (Int × Int)) :
    compute_value (e :: s) (o :: opts) =
      (if e = Entry.included then o.1 else 0) + compute_value s opts := by
  cases e <;> simp [compute_value]

theorem compute_cost_cons (e : Entry) (s : List Entry) (o : Int × Int)
    (opts : List (Int × Int)) :
    compute_cost (e :: s) (o :: opts) =
      (if e = Entry.included then o.2 else 0) + compute_cost s opts := by
  cases e <;> simp [compute_cost]

theorem compute_value_nil_right (s : List Entry) :
    compute_value s [] = 0 := by
  cases s with
  | nil => rfl
  | cons e t => cases e <;> rfl

theorem compute_cost_nil_right (s : List Entry) :
    compute_cost s [] = 0 := by
  cases s with
  | nil => rfl
  | cons e t => cases e <;> rfl

theorem compute_value_no_included (s : List Entry) (opts : List (Int × Int))
    (h : Entry.included ∉ s) : compute_value s opts = 0 := by
  induction s generalizing opts with
  | nil => rfl
  | cons e t ih =>
    cases opts with
    | nil => exact compute_value_nil_right _
    | cons o os =>
      have he : e ≠ Entry.included := fun h1 => h (h1 ▸ List.mem_cons_self e t)
      have ht : Entry.included ∉ t := fun h1 => h (List.mem_cons_of_mem e h1)
      rw [compute_value_cons, if_neg he, ih os ht]
      ring

theorem compute_cost_no_included (s : List Entry) (opts : List (Int × Int))
    (h : Entry.included ∉ s) : compute_cost s opts = 0 := by
  induction s generalizing opts with
  | nil => rfl
  | cons e t ih =>
    cases opts with
    | nil => exact compute_cost_nil_right _
    | cons o os =>
      have he : e ≠ Entry.included := fun h1 => h (h1 ▸ List.mem_cons_self e t)
      have ht : Entry.included ∉ t := fun h1 => h (List.mem_cons_of_mem e h1)
      rw [compute_cost_cons, if_neg he, ih os ht]
      ring

theorem compute_cost_nonneg (s : List Entry) (opts : List (Int × Int))
    (hc : ∀ p ∈ opts, 0 ≤ p.2) : 0 ≤ compute_cost s opts := by
  induction s generalizing opts with
  | nil => exact le_refl 0
  | cons e t ih =>
    cases opts with
    | nil => rw [compute_cost_nil_right]
    | cons o os =>
      have h0 : 0 ≤ o.2 := hc o (List.mem_cons_self o os)
      have hs : ∀ p ∈ os, 0 ≤ p.2 := fun p hp => hc p (List.mem_cons_of_mem o hp)
      have := ih os hs
      rw [compute_cost_cons]
      by_cases he : e = Entry.included <;> simp [he] <;> omega

theorem compute_value_zeroFill (s : List Entry) (opts : List (Int × Int)) :
    compute_value (zeroFill s) opts = compute_value s opts := by
  induction s generalizing opts with
  | nil => rfl
  | cons e t ih =>
    cases opts with
    | nil => rw [compute_value_nil_right, compute_value_nil_right]
    | cons o os =>
      have hz : zeroFill (e :: t) =
          (if e = Entry.unset then Entry.excluded else e) :: zeroFill t := by
        simp [zeroFill]
      rw [hz, compute_value_cons, compute_value_cons, ih]
      cases e <;> simp

theorem compute_cost_zeroFill (s : List Entry) (opts : List (Int × Int)) :
    compute_cost (zeroFill s) opts = compute_cost s opts := by
  induction s generalizing opts with
  | nil => rfl
  | cons e t ih =>
    cases opts with
    | nil => rw [compute_cost_nil_right, compute_cost_nil_right]
    | cons o os =>
      have hz : zeroFill (e :: t) =
          (if e = Entry.unset then Entry.excluded else e) :: zeroFill t := by
        simp [zeroFill]
      rw [hz, compute_cost_cons, compute_cost_cons, ih]
      cases e <;> simp

theorem zeroFill_length (s : List Entry) : (zeroFill s).length = s.length := by
  simp [zeroFill]

theorem zeroFill_no_unset (s : List Entry) : Entry.unset ∉ zeroFill s := by
  intro hmem
  rcases List.mem_map.mp hmem with ⟨e, _, he⟩
  by_cases h : e = Entry.unset <;> simp [h] at he

theorem zeroFill_replicate_excluded (n : Nat) :
    zeroFill (List.replicate n Entry.excluded) = List.replicate n Entry.excluded := by
  simp [zeroFill]

/-! ### Refinement-order lemmas -/

theorem extendsTo_nil (a : List Entry) (h : extendsTo [] a) : a = [] := by
  cases a with
  | nil => rfl
  | cons f t => exact absurd h (by simp [extendsTo])

theorem extendsTo_cons_iff (e : Entry) (s : List Entry) (a : List Entry) :
    extendsTo (e :: s) a ↔
      ∃ f t, a = f :: t ∧ (e = Entry.unset ∨ f = e) ∧ extendsTo s t := by
  cases a with
  | nil => simp [extendsTo]
  | cons f t =>
    constructor
    · intro h
      exact ⟨f, t, rfl, h.1, h.2⟩
    · rintro ⟨f1, t1, heq, h1, h2⟩
      cases heq
      exact ⟨h1, h2⟩

theorem extendsTo_refl (s : List Entry) : extendsTo s s := by
  induction s with
  | nil => trivial
  | cons e t ih => exact ⟨Or.inr rfl, ih⟩

theorem extendsTo_length (s a : List Entry) (h : extendsTo s a) :
    s.length = a.length := by
  induction s generalizing a with
  | nil => rw [extendsTo_nil a h]
  | cons e t ih =>
    rcases (extendsTo_cons_iff e t a).mp h with ⟨f, t1, heq, _, h2⟩
    subst heq
    simp [ih t1 h2]

theorem extendsTo_complete_eq (s a : List Entry) (hs : Entry.unset ∉ s)
    (h : extendsTo s a) : a = s := by
  induction s generalizing a with
  | nil => exact extendsTo_nil a h
  | cons e t ih =>
    rcases (extendsTo_cons_iff e t a).mp h with ⟨f, t1, heq, h1, h2⟩
    subst heq
    have he : e ≠ Entry.unset := fun h1 => hs (h1 ▸ List.mem_cons_self e t)
    have ht : Entry.unset ∉ t := fun h1 => hs (List.mem_cons_of_mem e h1)
    rcases h1 with h1 | h1
    · exact absurd h1 he
    · rw [h1, ih t1 ht h2]

theorem replicate_unset_extendsTo (a : List Entry) :
    extendsTo (List.replicate a.length Entry.unset) a := by
  induction a with
  | nil => trivial
  | cons f t ih =>
    simp only [List.length_cons, List.replicate_succ]
    exact ⟨Or.inl rfl, ih⟩

theorem extendsTo_cost_le (s a : List Entry) (opts : List (Int × Int))
    (hc : ∀ p ∈ opts, 0 ≤ p.2) (h : extendsTo s a) :
    compute_cost s opts ≤ compute_cost a opts := by
  induction s generalizing a opts with
  | nil => rw [extendsTo_nil a h]
  | cons e t ih =>
    rcases (extendsTo_cons_iff e t a).mp h with ⟨f, t1, heq, h1, h2⟩
    subst heq
    cases opts with
    | nil => rw [compute_cost_nil_right, compute_cost_nil_right]
    | cons o os =>
      have h0 : 0 ≤ o.2 := hc o (List.mem_cons_self o os)
      have hs : ∀ p ∈ os, 0 ≤ p.2 := fun p hp => hc p (List.mem_cons_of_mem o hp)
      have hrec := ih t1 os hs h2
      rw [compute_cost_cons, compute_cost_cons]
      rcases h1 with h1 | h1
      · subst h1
        have : ¬(Entry.unset = Entry.included) := by decide
        rw [if_neg this]
        by_cases hf : f = Entry.included <;> simp [hf] <;> omega
      · subst h1
        by_cases hf : f = Entry.included <;> simp [hf] <;> omega

/-! ### Branch-expansion lemmas -/

theorem set_first_unset (s : List Entry) (h : Entry.unset ∈ s) :
    ∃ p t, s = p ++ Entry.unset :: t ∧ Entry.unset ∉ p ∧
      ∀ x, s.set (s.findIdx (· == Entry.unset)) x = p ++ x :: t := by
  induction s with
  | nil => cases h
  | cons e r ih =>
    by_cases he : e = Entry.unset
    · subst he
      refine ⟨[], r, rfl, by simp, fun x => ?_⟩
      simp [List.findIdx_cons]
    · have hm : Entry.unset ∈ r := by
        rcases List.mem_cons.mp h with h1 | h1
        · exact absurd h1.symm he
        · exact h1
      rcases ih hm with ⟨p, t, heq, hp, hset⟩
      refine ⟨e :: p, t, by rw [heq]; rfl, ?_, fun x => ?_⟩
      · intro hmem
        rcases List.mem_cons.mp hmem with h1 | h1
        · exact he h1.symm
        · exact hp h1
      · have hbe : (e == Entry.unset) = false := by
          rcases e with _ | _ | _ <;> simp_all
        rw [List.findIdx_cons, hbe]
        simp only [cond_false, List.set_cons_succ, hset x, List.cons_append]

theorem expand_branches_of_not_mem (s : List Entry) (h : Entry.unset ∉ s) :
    expand_branches s = [] := by
  rw [expand_branches, if_neg h]

theorem expand_branches_of_mem (s : List Entry) (h : Entry.unset ∈ s) :
    ∃ p t, s = p ++ Entry.unset :: t ∧ Entry.unset ∉ p ∧
      expand_branches s =
        [p ++ Entry.excluded :: t, p ++ Entry.included :: t] := by
  rcases set_first_unset s h with ⟨p, t, heq, hp, hset⟩
  exact ⟨p, t, heq, hp, by rw [expand_branches, if_pos h, hset, hset]⟩

theorem mem_expand_branches_length (s b : List Entry)
    (h : b ∈ expand_branches s) : b.length = s.length := by
  by_cases hm : Entry.unset ∈ s
  · rcases expand_branches_of_mem s hm with ⟨p, t, heq, _, hexp⟩
    rw [hexp] at h
    rw [heq]
    rcases List.mem_cons.mp h with h1 | h1
    · subst h1; simp
    · rcases List.mem_cons.mp h1 with h2 | h2
      · subst h2; simp
      · cases h2
  · rw [expand_branches_of_not_mem s hm] at h
    cases h

theorem unsetCount_append_unset (p t : List Entry) (hp : Entry.unset ∉ p)
    (x : Entry) :
    unsetCount (p ++ x :: t) =
      (if x = Entry.unset then 1 else 0) + unsetCount t := by
  have hp0 : p.countP (· == Entry.unset) = 0 := by
    rw [List.countP_eq_zero]
    intro a ha
    rcases a with _ | _ | _ <;> simp_all
  rw [unsetCount, List.countP_append, hp0, List.countP_cons]
  rcases x with _ | _ | _ <;> simp [unsetCount]
  omega

theorem expand_branches_measure (s : List Entry) :
    branchMeasure (expand_branches s) < 3 ^ unsetCount s := by
  by_cases hm : Entry.unset ∈ s
  · rcases expand_branches_of_mem s hm with ⟨p, t, heq, hp, hexp⟩
    have h1 : unsetCount (p ++ Entry.excluded :: t) = unsetCount t := by
      rw [unsetCount_append_unset p t hp]; simp
    have h2 : unsetCount (p ++ Entry.included :: t) = unsetCount t := by
      rw [unsetCount_append_unset p t hp]; simp
    have h3 : unsetCount s = 1 + unsetCount t := by
      rw [heq, unsetCount_append_unset p t hp]; simp
    have hpos : 0 < 3 ^ unsetCount t := Nat.pos_pow_of_pos _ (by omega)
    rw [hexp, h3]
    simp only [branchMeasure, List.map_cons, List.map_nil, List.sum_cons,
      List.sum_nil, h1, h2]
    have : (3 : Nat) ^ (1 + unsetCount t) = 3 * 3 ^ unsetCount t := by
      rw [pow_add, pow_one]
    omega
  · rw [expand_branches_of_not_mem s hm]
    simp only [branchMeasure, List.map_nil, List.sum_nil]
    exact Nat.pos_pow_of_pos _ (by omega)

theorem expand_branches_cover (s a : List Entry) (hext : extendsTo s a)
    (ha : Entry.unset ∉ a) (hm : Entry.unset ∈ s) :
    ∃ b ∈ expand_branches s, extendsTo b a := by
  rcases expand_branches_of_mem s hm with ⟨p, t, heq, hp, hexp⟩
  subst heq
  rw [hexp]
  have key : ∀ (p1 : List Entry) (a1 : List Entry),
      extendsTo (p1 ++ Entry.unset :: t) a1 → Entry.unset ∉ a1 →
      extendsTo (p1 ++ Entry.excluded :: t) a1 ∨
        extendsTo (p1 ++ Entry.included :: t) a1 := by
    intro p1
    induction p1 with
    | nil =>
      intro a1 h1 h2
      rcases (extendsTo_cons_iff _ _ _).mp h1 with ⟨f, t1, heq1, _, hrec⟩
      subst heq1
      have hf : f ≠ Entry.unset := fun hx => h2 (hx ▸ List.mem_cons_self f t1)
      rcases f with _ | _ | _
      · exact absurd rfl hf
      · exact Or.inl ⟨Or.inr rfl, hrec⟩
      · exact Or.inr ⟨Or.inr rfl, hrec⟩
    | cons q qs ih =>
      intro a1 h1 h2
      rcases (extendsTo_cons_iff _ _ _).mp h1 with ⟨f, t1, heq1, hhead, hrec⟩
      subst heq1
      have ht1 : Entry.unset ∉ t1 := fun hx => h2 (List.mem_cons_of_mem f hx)
      rcases ih t1 hrec ht1 with h | h
      · exact Or.inl ⟨hhead, h⟩
      · exact Or.inr ⟨hhead, h⟩
  rcases key p a hext ha with h | h
  · exact ⟨p ++ Entry.excluded :: t, by simp, h⟩
  · exact ⟨p ++ Entry.included :: t, by simp, h⟩

/-! ### Branch-and-bound loop lemmas -/

theorem bnbRun_nil (options : List (Int × Int)) (bound : Int) (fuel : Nat)
    (best : List Entry × Int × Int) :
    bnbRun options bound fuel [] best = best := by
  cases fuel <;> rfl

theorem bnbRun_cons (options : List (Int × Int)) (bound : Int) (fuel : Nat)
    (s : List Entry) (rest : List (List Entry)) (best : List Entry × Int × Int) :
    bnbRun options bound (fuel + 1) (s :: rest) best =
      if compute_cost s options ≤ bound then
        bnbRun options bound fuel (rest ++ expand_branches s)
          (if compute_value s options > best.2.1 ∨
              (compute_value s options = best.2.1 ∧
                compute_cost s options < best.2.2) then
            (s, compute_value s options, compute_cost s options)
          else best)
      else
        bnbRun options bound fuel rest best := rfl

theorem bnbRun_cost_le (options : List (Int × Int)) (bound : Int) :
    ∀ (fuel : Nat) (branches : List (List Entry)) (best : List Entry × Int × Int),
      best.2.2 ≤ bound → (bnbRun options bound fuel branches best).2.2 ≤ bound := by
  intro fuel
  induction fuel with
  | zero =>
    intro branches best h
    cases branches with
    | nil => rwa [bnbRun_nil]
    | cons s rest => exact h
  | succ f ih =>
    intro branches best h
    cases branches with
    | nil => rwa [bnbRun_nil]
    | cons s rest =>
      rw [bnbRun_cons]
      by_cases hfeas : compute_cost s options ≤ bound
      · rw [if_pos hfeas]
        apply ih
        by_cases hacc : compute_value s options > best.2.1 ∨
            (compute_value s options = best.2.1 ∧
              compute_cost s options < best.2.2)
        · rw [if_pos hacc]; exact hfeas
        · rw [if_neg hacc]; exact h
      · rw [if_neg hfeas]
        exact ih rest best h

theorem bnbRun_spec (options : List (Int × Int)) (bound : Int)
    (hc : ∀ p ∈ options, 0 ≤ p.2) :
    ∀ (fuel : Nat) (branches : List (List Entry)) (best : List Entry × Int × Int),
      branchMeasure branches ≤ fuel →
      (∀ b ∈ branches, b.length = options.length) →
      best.1.length = options.length →
      best.2.1 = compute_value best.1 options →
      best.2.2 = compute_cost best.1 options →
      best.2.2 ≤ bound →
      (∀ a : List Entry, a.length = options.length → Entry.unset ∉ a →
        compute_cost a options ≤ bound →
        (∃ b ∈ branches, extendsTo b a) ∨
          beats best.2.1 best.2.2 (compute_value a options) (compute_cost a options)) →
      (bnbRun options bound fuel branches best).1.length = options.length ∧
      (bnbRun options bound fuel branches best).2.1 =
        compute_value (bnbRun options bound fuel branches best).1 options ∧
      (bnbRun options bound fuel branches best).2.2 =
        compute_cost (bnbRun options bound fuel branches best).1 options ∧
      (bnbRun options bound fuel branches best).2.2 ≤ bound ∧
      (∀ a : List Entry, a.length = options.length → Entry.unset ∉ a →
        compute_cost a options ≤ bound →
        beats (bnbRun options bound fuel branches best).2.1
          (bnbRun options bound fuel branches best).2.2
          (compute_value a options) (compute_cost a options)) := by
  intro fuel
  induction fuel with
  | zero =>
    intro branches best hm hlen h1 h2 h3 h4 hcov
    have hb : branches = [] := by
      cases branches with
      | nil => rfl
      | cons s rest =>
        exfalso
        have hpos : 0 < 3 ^ unsetCount s := Nat.pos_pow_of_pos _ (by omega)
        have : branchMeasure (s :: rest) =
            3 ^ unsetCount s + branchMeasure rest := by
          simp [branchMeasure]
        omega
    subst hb
    rw [bnbRun_nil]
    refine ⟨h1, h2, h3, h4, ?_⟩
    intro a ha hna hfa
    rcases hcov a ha hna hfa with ⟨b, hb, _⟩ | h
    · cases hb
    · exact h
  | succ f ih =>
    intro branches best hm hlen h1 h2 h3 h4 hcov
    cases branches with
    | nil =>
      rw [bnbRun_nil]
      refine ⟨h1, h2, h3, h4, ?_⟩
      intro a ha hna hfa
      rcases hcov a ha hna hfa with ⟨b, hb, _⟩ | h
      · cases hb
      · exact h
    | cons s rest =>
      have hslen : s.length = options.length := hlen s (List.mem_cons_self s rest)
      have hrestlen : ∀ b ∈ rest, b.length = options.length :=
        fun b hb => hlen b (List.mem_cons_of_mem s hb)
      have hmeas : branchMeasure (s :: rest) =
          3 ^ unsetCount s + branchMeasure rest := by
        simp [branchMeasure]
      rw [bnbRun_cons]
      by_cases hfeas : compute_cost s options ≤ bound
      · rw [if_pos hfeas]
        have hexp := expand_branches_measure s
        have happ : branchMeasure (rest ++ expand_branches s) =
            branchMeasure rest + branchMeasure (expand_branches s) := by
          simp [branchMeasure]
        have hm' : branchMeasure (rest ++ expand_branches s) ≤ f := by omega
        have hlen' : ∀ b ∈ rest ++ expand_branches s, b.length = options.length := by
          intro b hb
          rcases List.mem_append.mp hb with hb | hb
          · exact hrestlen b hb
          · rw [mem_expand_branches_length s b hb]; exact hslen
        by_cases hacc : compute_value s options > best.2.1 ∨
            (compute_value s options = best.2.1 ∧
              compute_cost s options < best.2.2)
        · rw [if_pos hacc]
          apply ih _ _ hm' hlen' hslen rfl rfl hfeas
          intro a ha hna hfa
          rcases hcov a ha hna hfa with ⟨b, hb, hext⟩ | hbeats
          · rcases List.mem_cons.mp hb with hb | hb
            · subst hb
              by_cases hu : Entry.unset ∈ b
              · rcases expand_branches_cover b a hext hna hu with ⟨b2, hb2, hext2⟩
                exact Or.inl ⟨b2, List.mem_append.mpr (Or.inr hb2), hext2⟩
              · have heq : a = b := extendsTo_complete_eq b a hu hext
                subst heq
                exact Or.inr (Or.inr ⟨rfl, le_refl _⟩)
            · exact Or.inl ⟨b, List.mem_append.mpr (Or.inl hb), hext⟩
          · right
            simp only [beats] at hbeats ⊢
            rcases hacc with hgt | ⟨heqv, hltc⟩ <;>
              rcases hbeats with hlt | ⟨heq, hle⟩
            · left; omega
            · left; omega
            · left; omega
            · right; constructor <;> omega
        · rw [if_neg hacc]
          push_neg at hacc
          apply ih _ _ hm' hlen' h1 h2 h3 h4
          intro a ha hna hfa
          rcases hcov a ha hna hfa with ⟨b, hb, hext⟩ | hbeats
          · rcases List.mem_cons.mp hb with hb | hb
            · subst hb
              by_cases hu : Entry.unset ∈ b
              · rcases expand_branches_cover b a hext hna hu with ⟨b2, hb2, hext2⟩
                exact Or.inl ⟨b2, List.mem_append.mpr (Or.inr hb2), hext2⟩
              · have heq : a = b := extendsTo_complete_eq b a hu hext
                subst heq
                right
                simp only [beats]
                rcases lt_or_eq_of_le hacc.1 with hlt | heqv
                · exact Or.inl hlt
                · exact Or.inr ⟨heqv, hacc.2 heqv⟩
            · exact Or.inl ⟨b, List.mem_append.mpr (Or.inl hb), hext⟩
          · exact Or.inr hbeats
      · rw [if_neg hfeas]
        have hm' : branchMeasure rest ≤ f := by
          have hpos : 0 < 3 ^ unsetCount s := Nat.pos_pow_of_pos _ (by omega)
          omega
        apply ih _ _ hm' hrestlen h1 h2 h3 h4
        intro a ha hna hfa
        rcases hcov a ha hna hfa with ⟨b, hb, hext⟩ | hbeats
        · rcases List.mem_cons.mp hb with hb | hb
          · subst hb
            exfalso
            have := extendsTo_cost_le b a options hc hext
            omega
          · exact Or.inl ⟨b, hb, hext⟩
        · exact Or.inr hbeats

/-! ### From the loop invariant to `branch_and_bound` -/

theorem compute_value_nil_left (opts : List (Int × Int)) :
    compute_value [] opts = 0 := by
  cases opts <;> rfl

theorem compute_cost_nil_left (opts : List (Int × Int)) :
    compute_cost [] opts = 0 := by
  cases opts <;> rfl

theorem branch_and_bound_eq (options : List (Int × Int)) (bound : Int) :
    branch_and_bound options bound =
      if (bnbRun options bound (3 ^ (options.length + 1))
            (expand_branches (List.replicate options.length Entry.unset))
            (List.replicate options.length Entry.excluded, 0, 0)).2.2 ≤ bound then
        some (zeroFill (bnbRun options bound (3 ^ (options.length + 1))
                (expand_branches (List.replicate options.length Entry.unset))
                (List.replicate options.length Entry.excluded, 0, 0)).1,
              (bnbRun options bound (3 ^ (options.length + 1))
                (expand_branches (List.replicate options.length Entry.unset))
                (List.replicate options.length Entry.excluded, 0, 0)).2.1,
              (bnbRun options bound (3 ^ (options.length + 1))
                (expand_branches (List.replicate options.length Entry.unset))
                (List.replicate options.length Entry.excluded, 0, 0)).2.2)
      else
        none := rfl

theorem unsetCount_replicate (n : Nat) :
    unsetCount (List.replicate n Entry.unset) = n := by
  simp [unsetCount, List.countP_replicate]

theorem not_included_mem_replicate_excluded (n : Nat) :
    Entry.included ∉ List.replicate n Entry.excluded := by
  intro h
  have := (List.mem_replicate.mp h).2
  cases this

theorem branch_and_bound_spec (options : List (Int × Int)) (bound : Int)
    (hc : ∀ p ∈ options, 0 ≤ p.2) (hb : 0 ≤ bound) :
    ∃ r, branch_and_bound options bound = some r ∧ isOptimalResult options bound r := by
  have hcount := unsetCount_replicate options.length
  have hmeas : branchMeasure
      (expand_branches (List.replicate options.length Entry.unset)) ≤
      3 ^ (options.length + 1) := by
    have h1 := expand_branches_measure (List.replicate options.length Entry.unset)
    rw [hcount] at h1
    have h2 : (3 : Nat) ^ options.length ≤ 3 ^ (options.length + 1) :=
      Nat.pow_le_pow_right (by omega) (by omega)
    omega
  have hlen : ∀ b ∈ expand_branches (List.replicate options.length Entry.unset),
      b.length = options.length := by
    intro b hb2
    rw [mem_expand_branches_length _ b hb2, List.length_replicate]
  have hnoinc := not_included_mem_replicate_excluded options.length
  have hcov : ∀ a : List Entry, a.length = options.length → Entry.unset ∉ a →
      compute_cost a options ≤ bound →
      (∃ b ∈ expand_branches (List.replicate options.length Entry.unset),
          extendsTo b a) ∨
        beats (List.replicate options.length Entry.excluded,
            (0 : Int), (0 : Int)).2.1
          (List.replicate options.length Entry.excluded,
            (0 : Int), (0 : Int)).2.2
          (compute_value a options) (compute_cost a options) := by
    intro a ha hna hfa
    have hext : extendsTo (List.replicate options.length Entry.unset) a := by
      rw [← ha]
      exact replicate_unset_extendsTo a
    by_cases hu : Entry.unset ∈ List.replicate options.length Entry.unset
    · exact Or.inl (expand_branches_cover _ a hext hna hu)
    · have hn0 : options.length = 0 := by
        by_contra hne
        exact hu (List.mem_replicate.mpr ⟨hne, rfl⟩)
      have ha0 : a = [] := List.length_eq_zero.mp (by rw [ha, hn0])
      subst ha0
      right
      rw [compute_value_nil_left, compute_cost_nil_left]
      exact Or.inr ⟨rfl, le_refl _⟩
  have H := bnbRun_spec options bound hc (3 ^ (options.length + 1))
    (expand_branches (List.replicate options.length Entry.unset))
    (List.replicate options.length Entry.excluded, 0, 0)
    hmeas hlen (List.length_replicate _ _)
    (compute_value_no_included _ _ hnoinc).symm
    (compute_cost_no_included _ _ hnoinc).symm
    hb hcov
  obtain ⟨hrl, hrv, hrc, hrb, hrdom⟩ := H
  rw [branch_and_bound_eq, if_pos hrb]
  refine ⟨_, rfl, ?_⟩
  unfold isOptimalResult
  dsimp only
  refine ⟨?_, ?_, ?_, ?_, ?_, ?_, ?_⟩
  · rw [zeroFill_length]
    exact hrl
  · exact zeroFill_no_unset _
  · rw [compute_value_zeroFill]
    exact hrv
  · rw [compute_cost_zeroFill]
    exact hrc
  · exact hrb
  · intro a ha hna hfa
    have := hrdom a ha hna hfa
    rcases this with h | ⟨h1, _⟩
    · exact le_of_lt h
    · exact le_of_eq h1
  · intro a ha hna hfa hval
    have := hrdom a ha hna hfa
    rcases this with h | ⟨_, h2⟩
    · exact absurd hval (by omega)
    · exact h2

/-! ### Brute-force enumeration lemmas -/

theorem mem_all_assignments (n : Nat) (a : List Entry) :
    a ∈ all_assignments n ↔ (a.length = n ∧ Entry.unset ∉ a) := by
  induction n generalizing a with
  | zero =>
    simp only [all_assignments, List.mem_singleton]
    constructor
    · rintro rfl
      exact ⟨rfl, by simp⟩
    · rintro ⟨h1, _⟩
      exact List.length_eq_zero.mp h1
  | succ n ih =>
    simp only [all_assignments, List.mem_append, List.mem_map]
    constructor
    · rintro (⟨b, hb, rfl⟩ | ⟨b, hb, rfl⟩) <;>
        rcases (ih b).mp hb with ⟨hl, hu⟩
      · refine ⟨by simp [hl], ?_⟩
        intro hmem
        rcases List.mem_cons.mp hmem with h | h
        · cases h
        · exact hu h
      · refine ⟨by simp [hl], ?_⟩
        intro hmem
        rcases List.mem_cons.mp hmem with h | h
        · cases h
        · exact hu h
    · rintro ⟨hl, hu⟩
      cases a with
      | nil => cases hl
      | cons f t =>
        have hf : f ≠ Entry.unset := fun h => hu (h ▸ List.mem_cons_self f t)
        have ht : Entry.unset ∉ t := fun h => hu (List.mem_cons_of_mem f h)
        have htl : t.length = n := by simpa using hl
        have htm : t ∈ all_assignments n := (ih t).mpr ⟨htl, ht⟩
        rcases f with _ | _ | _
        · exact absurd rfl hf
        · exact Or.inl ⟨t, htm, rfl⟩
        · exact Or.inr ⟨t, htm, rfl⟩

theorem beats_trans (v1 c1 v2 c2 v3 c3 : Int) (h1 : beats v1 c1 v2 c2)
    (h2 : beats v2 c2 v3 c3) : beats v1 c1 v3 c3 := by
  simp only [beats] at h1 h2 ⊢
  rcases h1 with h1 | ⟨e1, l1⟩ <;> rcases h2 with h2 | ⟨e2, l2⟩
  · left; omega
  · left; omega
  · left; omega
  · right; constructor <;> omega

theorem beats_refl (v c : Int) : beats v c v c :=
  Or.inr ⟨rfl, le_refl c⟩

theorem bfFold_spec (options : List (Int × Int)) (bound : Int) :
    ∀ (l : List (List Entry)) (best : List Entry × Int × Int),
      (∀ a ∈ l, a.length = options.length ∧ Entry.unset ∉ a) →
      best.1.length = options.length →
      Entry.unset ∉ best.1 →
      best.2.1 = compute_value best.1 options →
      best.2.2 = compute_cost best.1 options →
      best.2.2 ≤ bound →
      (l.foldl (bfStep options bound) best).1.length = options.length ∧
      Entry.unset ∉ (l.foldl (bfStep options bound) best).1 ∧
      (l.foldl (bfStep options bound) best).2.1 =
        compute_value (l.foldl (bfStep options bound) best).1 options ∧
      (l.foldl (bfStep options bound) best).2.2 =
        compute_cost (l.foldl (bfStep options bound) best).1 options ∧
      (l.foldl (bfStep options bound) best).2.2 ≤ bound ∧
      beats (l.foldl (bfStep options bound) best).2.1
        (l.foldl (bfStep options bound) best).2.2 best.2.1 best.2.2 ∧
      (∀ a ∈ l, compute_cost a options ≤ bound →
        beats (l.foldl (bfStep options bound) best).2.1
          (l.foldl (bfStep options bound) best).2.2
          (compute_value a options) (compute_cost a options)) := by
  intro l
  induction l with
  | nil =>
    intro best hl h1 h2 h3 h4 h5
    refine ⟨h1, h2, h3, h4, h5, beats_refl _ _, ?_⟩
    intro a ha
    cases ha
  | cons a0 l1 ih =>
    intro best hl h1 h2 h3 h4 h5
    have ha0 := hl a0 (List.mem_cons_self a0 l1)
    have hl1 : ∀ a ∈ l1, a.length = options.length ∧ Entry.unset ∉ a :=
      fun a ha => hl a (List.mem_cons_of_mem a0 ha)
    have hfold : (a0 :: l1).foldl (bfStep options bound) best =
        l1.foldl (bfStep options bound) (bfStep options bound best a0) := rfl
    by_cases hacc : (compute_cost a0 options ≤ bound ∧
          compute_value a0 options > best.2.1) ∨
        (compute_value a0 options = best.2.1 ∧
          compute_cost a0 options < best.2.2)
    · have hstep : bfStep options bound best a0 =
          (a0, compute_value a0 options, compute_cost a0 options) := by
        rw [bfStep, if_pos hacc]
      have hfeas0 : compute_cost a0 options ≤ bound := by
        rcases hacc with ⟨h, _⟩ | ⟨_, h⟩
        · exact h
        · omega
      have H := ih (bfStep options bound best a0)
        hl1 (by rw [hstep]; exact ha0.1) (by rw [hstep]; exact ha0.2)
        (by rw [hstep]) (by rw [hstep]) (by rw [hstep]; exact hfeas0)
      rw [← hfold] at H
      obtain ⟨H1, H2, H3, H4, H5, H6, H7⟩ := H
      have hstepbeats : beats (bfStep options bound best a0).2.1
          (bfStep options bound best a0).2.2 best.2.1 best.2.2 := by
        rw [hstep]
        rcases hacc with ⟨_, h⟩ | ⟨h, h2⟩
        · exact Or.inl h
        · exact Or.inr ⟨h.symm, le_of_lt h2⟩
      have hbeatsbest : beats ((a0 :: l1).foldl (bfStep options bound) best).2.1
          ((a0 :: l1).foldl (bfStep options bound) best).2.2 best.2.1 best.2.2 :=
        beats_trans _ _ _ _ _ _ H6 hstepbeats
      refine ⟨H1, H2, H3, H4, H5, hbeatsbest, ?_⟩
      intro a ha hfa
      rcases List.mem_cons.mp ha with rfl | ha
      · have : beats (bfStep options bound best a).2.1
            (bfStep options bound best a).2.2
            (compute_value a options) (compute_cost a options) := by
          rw [hstep]
          exact beats_refl _ _
        exact beats_trans _ _ _ _ _ _ H6 this
      · exact H7 a ha hfa
    · have hstep : bfStep options bound best a0 = best := by
        rw [bfStep, if_neg hacc]
      have H := ih (bfStep options bound best a0)
        hl1 (by rw [hstep]; exact h1) (by rw [hstep]; exact h2)
        (by rw [hstep]; exact h3) (by rw [hstep]; exact h4)
        (by rw [hstep]; exact h5)
      rw [← hfold] at H
      obtain ⟨H1, H2, H3, H4, H5, H6, H7⟩ := H
      rw [hstep] at H6
      refine ⟨H1, H2, H3, H4, H5, H6, ?_⟩
      intro a ha hfa
      rcases List.mem_cons.mp ha with rfl | ha
      · push_neg at hacc
        have hub : compute_value a options ≤ best.2.1 := hacc.1 hfa
        have hbb : beats best.2.1 best.2.2
            (compute_value a options) (compute_cost a options) := by
          rcases lt_or_eq_of_le hub with hlt | heqv
          · exact Or.inl hlt
          · exact Or.inr ⟨heqv, hacc.2 heqv⟩
        exact beats_trans _ _ _ _ _ _ H6 hbb
      · exact H7 a ha hfa

theorem brute_force_eq (options : List (Int × Int)) (bound : Int) :
    brute_force options bound =
      if ((all_assignments options.length).foldl (bfStep options bound)
            (List.replicate options.length Entry.excluded, 0, 0)).2.2 ≤ bound then
        some ((all_assignments options.length).foldl (bfStep options bound)
          (List.replicate options.length Entry.excluded, 0, 0))
      else
        none := rfl

theorem brute_force_spec (options : List (Int × Int)) (bound : Int)
    (hb : 0 ≤ bound) :
    ∃ r, brute_force options bound = some r ∧ isOptimalResult options bound r := by
  have hnoinc := not_included_mem_replicate_excluded options.length
  have hnou : Entry.unset ∉ List.replicate options.length Entry.excluded := by
    intro h
    have := (List.mem_replicate.mp h).2
    cases this
  have H := bfFold_spec options bound (all_assignments options.length)
    (List.replicate options.length Entry.excluded, 0, 0)
    (fun a ha => (mem_all_assignments options.length a).mp ha)
    (List.length_replicate _ _) hnou
    (compute_value_no_included _ _ hnoinc).symm
    (compute_cost_no_included _ _ hnoinc).symm
    hb
  obtain ⟨H1, H2, H3, H4, H5, _, H7⟩ := H
  rw [brute_force_eq, if_pos H5]
  refine ⟨_, rfl, H1, H2, H3, H4, H5, ?_, ?_⟩
  · intro a ha hna hfa
    have := H7 a ((mem_all_assignments options.length a).mpr ⟨ha, hna⟩) hfa
    rcases this with h | ⟨h1, _⟩
    · exact le_of_lt h
    · exact le_of_eq h1
  · intro a ha hna hfa hval
    have := H7 a ((mem_all_assignments options.length a).mpr ⟨ha, hna⟩) hfa
    rcases this with h | ⟨_, h2⟩
    · exact absurd hval (by omega)
    · exact h2

/-! ### Uniqueness of the optimal (value, cost) pair -/

theorem isOptimalResult_pair_eq (options : List (Int × Int)) (bound : Int)
    (r1 r2 : List Entry × Int × Int)
    (h1 : isOptimalResult options bound r1) (h2 : isOptimalResult options bound r2) :
    r1.2.1 = r2.2.1 ∧ r1.2.2 = r2.2.2 := by
  obtain ⟨l1, u1, v1, c1, bb1, max1, min1⟩ := h1
  obtain ⟨l2, u2, v2, c2, bb2, max2, min2⟩ := h2
  have hf1 : compute_cost r1.1 options ≤ bound := by rw [← c1]; exact bb1
  have hf2 : compute_cost r2.1 options ≤ bound := by rw [← c2]; exact bb2
  have hv12 : r2.2.1 ≤ r1.2.1 := by
    have := max1 r2.1 l2 u2 hf2
    rwa [← v2] at this
  have hv21 : r1.2.1 ≤ r2.2.1 := by
    have := max2 r1.1 l1 u1 hf1
    rwa [← v1] at this
  have hveq : r1.2.1 = r2.2.1 := le_antisymm hv21 hv12
  have hc12 : r1.2.2 ≤ r2.2.2 := by
    have := min1 r2.1 l2 u2 hf2 (by rw [← v2, ← hveq])
    rwa [← c2] at this
  have hc21 : r2.2.2 ≤ r1.2.2 := by
    have := min2 r1.1 l1 u1 hf1 (by rw [← v1, hveq])
    rwa [← c1] at this
  exact ⟨hveq, le_antisymm hc12 hc21⟩

/-! ### Negative bound: both final assertions fire -/

theorem bnbRun_neg (options : List (Int × Int)) (bound : Int)
    (hc : ∀ p ∈ options, 0 ≤ p.2) (hneg : bound < 0) :
    ∀ (fuel : Nat) (branches : List (List Entry)) (best : List Entry × Int × Int),
      bnbRun options bound fuel branches best = best := by
  intro fuel
  induction fuel with
  | zero =>
    intro branches best
    cases branches with
    | nil => rw [bnbRun_nil]
    | cons s rest => rfl
  | succ f ih =>
    intro branches best
    cases branches with
    | nil => rw [bnbRun_nil]
    | cons s rest =>
      rw [bnbRun_cons]
      have hcost := compute_cost_nonneg s options hc
      have : ¬ compute_cost s options ≤ bound := by omega
      rw [if_neg this]
      exact ih rest best

theorem branch_and_bound_neg (options : List (Int × Int)) (bound : Int)
    (hc : ∀ p ∈ options, 0 ≤ p.2) (hneg : bound < 0) :
    branch_and_bound options bound = none := by
  rw [branch_and_bound_eq, bnbRun_neg options bound hc hneg]
  have hcond : ¬ ((List.replicate options.length Entry.excluded,
      (0 : Int), (0 : Int)).2.2 ≤ bound) := by
    dsimp only
    omega
  rw [if_neg hcond]

theorem bfStep_keeps_zero (options : List (Int × Int)) (bound : Int)
    (hc : ∀ p ∈ options, 0 ≤ p.2) (hneg : bound < 0)
    (best : List Entry × Int × Int) (hbz : best.2.2 = 0) (a : List Entry) :
    bfStep options bound best a = best := by
  rw [bfStep]
  have hcost := compute_cost_nonneg a options hc
  have hcond : ¬ ((compute_cost a options ≤ bound ∧
        compute_value a options > best.2.1) ∨
      (compute_value a options = best.2.1 ∧
        compute_cost a options < best.2.2)) := by
    push_neg
    constructor
    · intro h
      omega
    · intro _
      omega
  rw [if_neg hcond]

theorem bfFold_keeps_zero (options : List (Int × Int)) (bound : Int)
    (hc : ∀ p ∈ options, 0 ≤ p.2) (hneg : bound < 0) :
    ∀ (l : List (List Entry)) (best : List Entry × Int × Int), best.2.2 = 0 →
      l.foldl (bfStep options bound) best = best := by
  intro l
  induction l with
  | nil => intro best _; rfl
  | cons a0 l1 ih =>
    intro best hbz
    have hstep := bfStep_keeps_zero options bound hc hneg best hbz a0
    calc (a0 :: l1).foldl (bfStep options bound) best
        = l1.foldl (bfStep options bound) (bfStep options bound best a0) := rfl
      _ = l1.foldl (bfStep options bound) best := by rw [hstep]
      _ = best := ih best hbz

theorem brute_force_neg (options : List (Int × Int)) (bound : Int)
    (hc : ∀ p ∈ options, 0 ≤ p.2) (hneg : bound < 0) :
    brute_force options bound = none := by
  rw [brute_force_eq,
    bfFold_keeps_zero options bound hc hneg (all_assignments options.length)
      (List.replicate options.length Entry.excluded, 0, 0) rfl]
  have hcond : ¬ ((List.replicate options.length Entry.excluded,
      (0 : Int), (0 : Int)).2.2 ≤ bound) := by
    dsimp only
    omega
  rw [if_neg hcond]

/-! ### Every single item over the bound: the trivial solution is returned -/

theorem compute_cost_gt_of_included :
    ∀ (s : List Entry) (options : List (Int × Int)) (bound : Int),
      (∀ p ∈ options, 0 ≤ p.2) → (∀ p ∈ options, bound < p.2) →
      s.length ≤ options.length → Entry.included ∈ s →
      bound < compute_cost s options := by
  intro s
  induction s with
  | nil =>
    intro _ _ _ _ _ h
    cases h
  | cons e t ih =>
    intro options bound hc hbig hlen hmem
    cases options with
    | nil => simp at hlen
    | cons o os =>
      have hc2 : ∀ p ∈ os, 0 ≤ p.2 := fun p hp => hc p (List.mem_cons_of_mem o hp)
      have hbig2 : ∀ p ∈ os, bound < p.2 := fun p hp => hbig p (List.mem_cons_of_mem o hp)
      have hlen2 : t.length ≤ os.length := by simpa using hlen
      rw [compute_cost_cons]
      by_cases he : e = Entry.included
      · have h1 : bound < o.2 := hbig o (List.mem_cons_self o os)
        have h2 : 0 ≤ compute_cost t os := compute_cost_nonneg t os hc2
        rw [if_pos he]
        omega
      · have hmem2 : Entry.included ∈ t := by
          rcases List.mem_cons.mp hmem with h | h
          · exact absurd h.symm he
          · exact h
        rw [if_neg he]
        have := ih os bound hc2 hbig2 hlen2 hmem2
        omega

theorem bnbRun_allbig (options : List (Int × Int)) (bound : Int)
    (hc : ∀ p ∈ options, 0 ≤ p.2) (hb : 0 ≤ bound)
    (hbig : ∀ p ∈ options, bound < p.2) :
    ∀ (fuel : Nat) (branches : List (List Entry)),
      (∀ b ∈ branches, b.length = options.length) →
      bnbRun options bound fuel branches
          (List.replicate options.length Entry.excluded, 0, 0) =
        (List.replicate options.length Entry.excluded, 0, 0) := by
  intro fuel
  induction fuel with
  | zero =>
    intro branches _
    cases branches with
    | nil => rw [bnbRun_nil]
    | cons s rest => rfl
  | succ f ih =>
    intro branches hlen
    cases branches with
    | nil => rw [bnbRun_nil]
    | cons s rest =>
      rw [bnbRun_cons]
      have hslen := hlen s (List.mem_cons_self s rest)
      have hrest : ∀ b ∈ rest, b.length = options.length :=
        fun b hb2 => hlen b (List.mem_cons_of_mem s hb2)
      by_cases hinc : Entry.included ∈ s
      · have hgt := compute_cost_gt_of_included s options bound hc hbig
          (le_of_eq hslen) hinc
        have : ¬ compute_cost s options ≤ bound := by omega
        rw [if_neg this]
        exact ih rest hrest
      · have hv := compute_value_no_included s options hinc
        have hcost := compute_cost_no_included s options hinc
        have hfeas : compute_cost s options ≤ bound := by omega
        rw [if_pos hfeas]
        have hnacc : ¬ (compute_value s options >
              (List.replicate options.length Entry.excluded,
                (0 : Int), (0 : Int)).2.1 ∨
            (compute_value s options =
              (List.replicate options.length Entry.excluded,
                (0 : Int), (0 : Int)).2.1 ∧
              compute_cost s options <
              (List.replicate options.length Entry.excluded,
                (0 : Int), (0 : Int)).2.2)) := by
          dsimp only
          omega
        rw [if_neg hnacc]
        apply ih
        intro b hb2
        rcases List.mem_append.mp hb2 with h | h
        · exact hrest b h
        · rw [mem_expand_branches_length s b h]
          exact hslen

theorem branch_and_bound_allbig (options : List (Int × Int)) (bound : Int)
    (hc : ∀ p ∈ options, 0 ≤ p.2) (hb : 0 ≤ bound)
    (hbig : ∀ p ∈ options, bound < p.2) :
    branch_and_bound options bound =
      some (List.replicate options.length Entry.excluded, 0, 0) := by
  have hlen : ∀ b ∈ expand_branches (List.replicate options.length Entry.unset),
      b.length = options.length := by
    intro b hb2
    rw [mem_expand_branches_length _ b hb2, List.length_replicate]
  rw [branch_and_bound_eq, bnbRun_allbig options bound hc hb hbig _ _ hlen]
  have hcond : (List.replicate options.length Entry.excluded,
      (0 : Int), (0 : Int)).2.2 ≤ bound := by
    dsimp only
    omega
  rw [if_pos hcond]
  rw [zeroFill_replicate_excluded]

theorem bfStep_allbig (options : List (Int × Int)) (bound : Int)
    (hc : ∀ p ∈ options, 0 ≤ p.2) (hbig : ∀ p ∈ options, bound < p.2)
    (a : List Entry) (ha : a.length = options.length) :
    bfStep options bound
        (List.replicate options.length Entry.excluded, 0, 0) a =
      (List.replicate options.length Entry.excluded, 0, 0) := by
  rw [bfStep]
  have hcost := compute_cost_nonneg a options hc
  have hcond : ¬ ((compute_cost a options ≤ bound ∧
        compute_value a options >
          (List.replicate options.length Entry.excluded,
            (0 : Int), (0 : Int)).2.1) ∨
      (compute_value a options =
          (List.replicate options.length Entry.excluded,
            (0 : Int), (0 : Int)).2.1 ∧
        compute_cost a options <
          (List.replicate options.length Entry.excluded,
            (0 : Int), (0 : Int)).2.2)) := by
    dsimp only
    by_cases hinc : Entry.included ∈ a
    · have hgt := compute_cost_gt_of_included a options bound hc hbig
        (le_of_eq ha) hinc
      omega
    · have hv := compute_value_no_included a options hinc
      omega
  rw [if_neg hcond]

theorem bfFold_allbig (options : List (Int × Int)) (bound : Int)
    (hc : ∀ p ∈ options, 0 ≤ p.2) (hbig : ∀ p ∈ options, bound < p.2) :
    ∀ l : List (List Entry), (∀ a ∈ l, a.length = options.length) →
      l.foldl (bfStep options bound)
          (List.replicate options.length Entry.excluded, 0, 0) =
        (List.replicate options.length Entry.excluded, 0, 0) := by
  intro l
  induction l with
  | nil => intro _; rfl
  | cons a0 l1 ih =>
    intro hl
    have ha0 := hl a0 (List.mem_cons_self a0 l1)
    have hl1 : ∀ a ∈ l1, a.length = options.length :=
      fun a ha => hl a (List.mem_cons_of_mem a0 ha)
    calc (a0 :: l1).foldl (bfStep options bound)
          (List.replicate options.length Entry.excluded, 0, 0)
        = l1.foldl (bfStep options bound)
            (bfStep options bound
              (List.replicate options.length Entry.excluded, 0, 0) a0) := rfl
      _ = l1.foldl (bfStep options bound)
            (List.replicate options.length Entry.excluded, 0, 0) := by
          rw [bfStep_allbig options bound hc hbig a0 ha0]
      _ = (List.replicate options.length Entry.excluded, 0, 0) := ih hl1

theorem brute_force_allbig (options : List (Int × Int)) (bound : Int)
    (hc : ∀ p ∈ options, 0 ≤ p.2) (hb : 0 ≤ bound)
    (hbig : ∀ p ∈ options, bound < p.2) :
    brute_force options bound =
      some (List.replicate options.length Entry.excluded, 0, 0) := by
  rw [brute_force_eq, bfFold_allbig options bound hc hbig _
    (fun a ha => ((mem_all_assignments options.length a).mp ha).1)]
  have hcond : (List.replicate options.length Entry.excluded,
      (0 : Int), (0 : Int)).2.2 ≤ bound := by
    dsimp only
    omega
  rw [if_pos hcond]

/-! ### Decision-tree level structure -/

theorem expand_branches_length_two (s : List Entry) (h : Entry.unset ∈ s) :
    (expand_branches s).length = 2 := by
  rcases expand_branches_of_mem s h with ⟨p, t, _, _, hexp⟩
  rw [hexp]
  rfl

theorem unsetCount_pos_mem (s : List Entry) (h : unsetCount s ≠ 0) :
    Entry.unset ∈ s := by
  have hpos : 0 < s.countP (· == Entry.unset) := by
    have : s.countP (· == Entry.unset) = unsetCount s := rfl
    omega
  rcases List.countP_pos_iff.mp hpos with ⟨a, ha, hpa⟩
  have : a = Entry.unset := by
    rcases a with _ | _ | _ <;> simp_all
  exact this ▸ ha

theorem unsetCount_zero_not_mem (s : List Entry) (h : unsetCount s = 0) :
    Entry.unset ∉ s := by
  intro hmem
  have := List.countP_eq_zero.mp h Entry.unset hmem
  simp at this

theorem mem_expand_unsetCount (s b : List Entry) (h : b ∈ expand_branches s) :
    unsetCount s = unsetCount b + 1 := by
  by_cases hm : Entry.unset ∈ s
  · rcases expand_branches_of_mem s hm with ⟨p, t, heq, hp, hexp⟩
    rw [hexp] at h
    have hs : unsetCount s = 1 + unsetCount t := by
      rw [heq, unsetCount_append_unset p t hp]
      simp
    rcases List.mem_cons.mp h with h1 | h1
    · subst h1
      rw [unsetCount_append_unset p t hp]
      simp
      omega
    · rcases List.mem_cons.mp h1 with h2 | h2
      · subst h2
        rw [unsetCount_append_unset p t hp]
        simp
        omega
      · cases h2
  · rw [expand_branches_of_not_mem s hm] at h
    cases h

theorem branch_levels_spec (n : Nat) :
    ∀ k, k ≤ n →
      (branch_levels n k).length = 2 ^ k ∧
      ∀ s ∈ branch_levels n k, unsetCount s = n - k ∧ s.length = n := by
  intro k
  induction k with
  | zero =>
    intro _
    constructor
    · rfl
    · intro s hs
      rcases List.mem_singleton.mp hs with rfl
      exact ⟨unsetCount_replicate n, List.length_replicate n _⟩
  | succ k ih =>
    intro hk
    have hk2 : k ≤ n := by omega
    obtain ⟨hlen, hmem⟩ := ih hk2
    have hexp2 : ∀ s ∈ branch_levels n k, (expand_branches s).length = 2 := by
      intro s hs
      have hcnt := (hmem s hs).1
      have : unsetCount s ≠ 0 := by omega
      exact expand_branches_length_two s (unsetCount_pos_mem s this)
    have hstep : branch_levels n (k + 1) =
        (branch_levels n k).flatMap expand_branches := rfl
    constructor
    · have hsum : ∀ L : List (List Entry),
          (∀ s ∈ L, (expand_branches s).length = 2) →
          (L.map (List.length ∘ expand_branches)).sum = 2 * L.length := by
        intro L
        induction L with
        | nil =>
          intro _
          rfl
        | cons x xs ihL =>
          intro hx
          have h1 := hx x (List.mem_cons_self x xs)
          have h2 := ihL fun s hs => hx s (List.mem_cons_of_mem x hs)
          simp only [List.map_cons, List.sum_cons, List.length_cons,
            Function.comp_apply, h1, h2]
          ring
      rw [hstep, List.length_flatMap, hsum _ hexp2, hlen]
      ring
    · intro s hs
      rw [hstep] at hs
      rcases List.mem_flatMap.mp hs with ⟨b, hbmem, hsb⟩
      obtain ⟨hcb, hlb⟩ := hmem b hbmem
      have hrel := mem_expand_unsetCount b s hsb
      constructor
      · omega
      · rw [mem_expand_branches_length b s hsb, hlb]

theorem branch_levels_empty_succ (n : Nat) :
    branch_levels n (n + 1) = [] := by
  obtain ⟨_, hmem⟩ := branch_levels_spec n n (le_refl n)
  have hempty : ∀ s ∈ branch_levels n n, expand_branches s = [] := by
    intro s hs
    have hcnt := (hmem s hs).1
    have : unsetCount s = 0 := by omega
    exact expand_branches_of_not_mem s (unsetCount_zero_not_mem s this)
  have hstep : branch_levels n (n + 1) =
      (branch_levels n n).flatMap expand_branches := rfl
  rw [hstep]
  have : ∀ L : List (List Entry), (∀ s ∈ L, expand_branches s = []) →
      L.flatMap expand_branches = [] := by
    intro L
    induction L with
    | nil =>
      intro _
      rfl
    | cons x xs ihL =>
      intro hx
      have h1 := hx x (List.mem_cons_self x xs)
      have h2 := ihL fun s hs => hx s (List.mem_cons_of_mem x hs)
      simp [List.flatMap_cons, h1, h2]
  exact this _ hempty

/-! ### Pointwise-sum characterisation of the evaluator -/

theorem compute_value_eq_sum (s : List Entry) (opts : List (Int × Int))
    (h : s.length = opts.length) :
    compute_value s opts = ∑ i ∈ Finset.range opts.length,
      (if s.getD i Entry.unset = Entry.included then (opts.getD i (0, 0)).1 else 0) := by
  induction s generalizing opts with
  | nil =>
    have h0 : opts = [] := List.length_eq_zero.mp (by simpa using h.symm)
    subst h0
    rfl
  | cons e t ih =>
    cases opts with
    | nil => simp at h
    | cons o os =>
      have hlen : t.length = os.length := by simpa using h
      rw [compute_value_cons, ih os hlen,
        show (o :: os).length = os.length + 1 from rfl,
        Finset.sum_range_succ']
      simp only [List.getD_cons_succ, List.getD_cons_zero]
      ring

theorem compute_cost_eq_sum (s : List Entry) (opts : List (Int × Int))
    (h : s.length = opts.length) :
    compute_cost s opts = ∑ i ∈ Finset.range opts.length,
      (if s.getD i Entry.unset = Entry.included then (opts.getD i (0, 0)).2 else 0) := by
  induction s generalizing opts with
  | nil =>
    have h0 : opts = [] := List.length_eq_zero.mp (by simpa using h.symm)
    subst h0
    rfl
  | cons e t ih =>
    cases opts with
    | nil => simp at h
    | cons o os =>
      have hlen : t.length = os.length := by simpa using h
      rw [compute_cost_cons, ih os hlen,
        show (o :: os).length = os.length + 1 from rfl,
        Finset.sum_range_succ']
      simp only [List.getD_cons_succ, List.getD_cons_zero]
      ring

/-! ### Monotonicity of the optimum in the bound -/

theorem optimal_value_mono (options : List (Int × Int)) (b1 b2 : Int)
    (h12 : b1 ≤ b2) (r1 r2 : List Entry × Int × Int)
    (h1 : isOptimalResult options b1 r1) (h2 : isOptimalResult options b2 r2) :
    r1.2.1 ≤ r2.2.1 := by
  obtain ⟨l1, u1, v1, c1, bb1, _, _⟩ := h1
  obtain ⟨_, _, _, _, _, max2, _⟩ := h2
  have hf : compute_cost r1.1 options ≤ b2 := by
    rw [← c1]
    omega
  have := max2 r1.1 l1 u1 hf
  rwa [← v1] at this

/-! ### Step-wise feasibility preservation and fuel-independence -/

theorem bfStep_cost_le (options : List (Int × Int)) (bound : Int)
    (best : List Entry × Int × Int) (a : List Entry)
    (hle : best.2.2 ≤ bound) : (bfStep options bound best a).2.2 ≤ bound := by
  rw [bfStep]
  by_cases hcond : (compute_cost a options ≤ bound ∧
        compute_value a options > best.2.1) ∨
      (compute_value a options = best.2.1 ∧
        compute_cost a options < best.2.2)
  · rw [if_pos hcond]
    dsimp only
    rcases hcond with ⟨h, _⟩ | ⟨_, h⟩ <;> omega
  · rw [if_neg hcond]
    exact hle

theorem bfFold_cost_le (options : List (Int × Int)) (bound : Int) :
    ∀ (l : List (List Entry)) (best : List Entry × Int × Int),
      best.2.2 ≤ bound →
      (l.foldl (bfStep options bound) best).2.2 ≤ bound := by
  intro l
  induction l with
  | nil => intro best h; exact h
  | cons a0 l1 ih =>
    intro best h
    exact ih (bfStep options bound best a0)
      (bfStep_cost_le options bound best a0 h)

theorem bnbRun_fuel_irrel (options : List (Int × Int)) (bound : Int) :
    ∀ (fuel1 fuel2 : Nat) (branches : List (List Entry))
      (best : List Entry × Int × Int),
      branchMeasure branches ≤ fuel1 → branchMeasure branches ≤ fuel2 →
      bnbRun options bound fuel1 branches best =
        bnbRun options bound fuel2 branches best := by
  intro fuel1
  induction fuel1 with
  | zero =>
    intro fuel2 branches best h1 h2
    cases branches with
    | nil => rw [bnbRun_nil, bnbRun_nil]
    | cons s rest =>
      exfalso
      have hpos : 0 < 3 ^ unsetCount s := Nat.pos_pow_of_pos _ (by omega)
      have hmeq : branchMeasure (s :: rest) =
          3 ^ unsetCount s + branchMeasure rest := by
        simp [branchMeasure]
      omega
  | succ f1 ih =>
    intro fuel2 branches best h1 h2
    cases branches with
    | nil => rw [bnbRun_nil, bnbRun_nil]
    | cons s rest =>
      have hpos : 0 < 3 ^ unsetCount s := Nat.pos_pow_of_pos _ (by omega)
      have hmeq : branchMeasure (s :: rest) =
          3 ^ unsetCount s + branchMeasure rest := by
        simp [branchMeasure]
      cases fuel2 with
      | zero => omega
      | succ f2 =>
        rw [bnbRun_cons, bnbRun_cons]
        have hexp := expand_branches_measure s
        have happ : branchMeasure (rest ++ expand_branches s) =
            branchMeasure rest + branchMeasure (expand_branches s) := by
          simp [branchMeasure]
        by_cases hfeas : compute_cost s options ≤ bound
        · rw [if_pos hfeas, if_pos hfeas]
          exact ih f2 _ _ (by omega) (by omega)
        · rw [if_neg hfeas, if_neg hfeas]
          exact ih f2 _ _ (by omega) (by omega)

/-! ### The ten claims -/

/-- Claim C1: for every sequence of items with non-negative values and costs
and every bound, `branch_and_bound` and `brute_force` return the same
(value, cost) pair (when the bound is negative, both fail their final
assertion, so both results are `none`). -/
theorem claim_C1_equivalence (options : List (Int × Int)) (bound : Int)
    (hv : ∀ p ∈ options, 0 ≤ p.1) (hc : ∀ p ∈ options, 0 ≤ p.2) :
    (branch_and_bound options bound).map (fun r => (r.2.1, r.2.2)) =
      (brute_force options bound).map (fun r => (r.2.1, r.2.2)) := by
  by_cases hb : 0 ≤ bound
  · obtain ⟨r1, he1, ho1⟩ := branch_and_bound_spec options bound hc hb
    obtain ⟨r2, he2, ho2⟩ := brute_force_spec options bound hb
    obtain ⟨hv12, hc12⟩ := isOptimalResult_pair_eq options bound r1 r2 ho1 ho2
    rw [he1, he2]
    simp only [Option.map_some']
    rw [hv12, hc12]
  · push_neg at hb
    rw [branch_and_bound_neg options bound hc hb,
      brute_force_neg options bound hc hb]

theorem claim_C1_witness :
    ((∀ p ∈ [((10 : Int), (5 : Int))], 0 ≤ p.1) ∧
      (∀ p ∈ [((10 : Int), (5 : Int))], 0 ≤ p.2)) ∧
    (branch_and_bound [((10 : Int), (5 : Int))] 5).map (fun r => (r.2.1, r.2.2)) =
      (brute_force [((10 : Int), (5 : Int))] 5).map (fun r => (r.2.1, r.2.2)) :=
  ⟨⟨by decide, by decide⟩,
    claim_C1_equivalence [((10 : Int), (5 : Int))] 5 (by decide) (by decide)⟩

/-- Claim C2: for non-negative items and a bound at least `0`, each solver
returns a complete assignment of the right length whose returned value and
cost are the evaluator's outputs on it, whose cost is within the bound,
whose value is the maximum feasible value, and whose cost is minimal among
the feasible assignments attaining that value. -/
theorem claim_C2_functional_correctness (options : List (Int × Int)) (bound : Int)
    (hv : ∀ p ∈ options, 0 ≤ p.1) (hc : ∀ p ∈ options, 0 ≤ p.2)
    (hb : 0 ≤ bound) :
    (∃ r, branch_and_bound options bound = some r ∧
      isOptimalResult options bound r) ∧
    (∃ r, brute_force options bound = some r ∧
      isOptimalResult options bound r) :=
  ⟨branch_and_bound_spec options bound hc hb, brute_force_spec options bound hb⟩

theorem claim_C2_witness :
    ((∀ p ∈ [((10 : Int), (5 : Int))], 0 ≤ p.1) ∧
      (∀ p ∈ [((10 : Int), (5 : Int))], 0 ≤ p.2) ∧ (0 : Int) ≤ 5) ∧
    ((∃ r, branch_and_bound [((10 : Int), (5 : Int))] 5 = some r ∧
        isOptimalResult [((10 : Int), (5 : Int))] 5 r) ∧
      (∃ r, brute_force [((10 : Int), (5 : Int))] 5 = some r ∧
        isOptimalResult [((10 : Int), (5 : Int))] 5 r)) :=
  ⟨⟨by decide, by decide, by decide⟩,
    claim_C2_functional_correctness [((10 : Int), (5 : Int))] 5
      (by decide) (by decide) (by decide)⟩

/-- Claim C3: for non-negative items and a bound at least `0`, both solvers
return normally (neither final assertion fires) with a cost within the
bound, and the best-found candidate's cost stays within the bound at every
point of both searches (each loop step preserves it, from any state). -/
theorem claim_C3_safety (options : List (Int × Int)) (bound : Int)
    (hv : ∀ p ∈ options, 0 ≤ p.1) (hc : ∀ p ∈ options, 0 ≤ p.2)
    (hb : 0 ≤ bound) :
    (∃ r, branch_and_bound options bound = some r ∧ r.2.2 ≤ bound) ∧
    (∃ r, brute_force options bound = some r ∧ r.2.2 ≤ bound) ∧
    (∀ (fuel : Nat) (branches : List (List Entry))
      (best : List Entry × Int × Int),
      best.2.2 ≤ bound → (bnbRun options bound fuel branches best).2.2 ≤ bound) ∧
    (∀ (best : List Entry × Int × Int) (a : List Entry),
      best.2.2 ≤ bound → (bfStep options bound best a).2.2 ≤ bound) := by
  obtain ⟨r1, he1, ho1⟩ := branch_and_bound_spec options bound hc hb
  obtain ⟨r2, he2, ho2⟩ := brute_force_spec options bound hb
  exact ⟨⟨r1, he1, ho1.2.2.2.2.1⟩, ⟨r2, he2, ho2.2.2.2.2.1⟩,
    bnbRun_cost_le options bound,
    fun best a h => bfStep_cost_le options bound best a h⟩

theorem claim_C3_witness :
    ((∀ p ∈ [((10 : Int), (5 : Int))], 0 ≤ p.1) ∧
      (∀ p ∈ [((10 : Int), (5 : Int))], 0 ≤ p.2) ∧ (0 : Int) ≤ 5) ∧
    ((∃ r, branch_and_bound [((10 : Int), (5 : Int))] 5 = some r ∧ r.2.2 ≤ 5) ∧
      (∃ r, brute_force [((10 : Int), (5 : Int))] 5 = some r ∧ r.2.2 ≤ 5) ∧
      (∀ (fuel : Nat) (branches : List (List Entry))
        (best : List Entry × Int × Int),
        best.2.2 ≤ 5 →
        (bnbRun [((10 : Int), (5 : Int))] 5 fuel branches best).2.2 ≤ 5) ∧
      (∀ (best : List Entry × Int × Int) (a : List Entry),
        best.2.2 ≤ 5 → (bfStep [((10 : Int), (5 : Int))] 5 best a).2.2 ≤ 5)) :=
  ⟨⟨by decide, by decide, by decide⟩,
    claim_C3_safety [((10 : Int), (5 : Int))] 5 (by decide) (by decide) (by decide)⟩

/-- Claim C4 (counterexample): at items `[(10, 5)]` and bound `-3` neither
solver returns normally: both final assertions fire, so both results are
`none` rather than the all-excluded assignment with value `0` and cost `0`. -/
theorem claim_C4_counterexample :
    branch_and_bound [((10 : Int), (5 : Int))] (-3) = none ∧
    brute_force [((10 : Int), (5 : Int))] (-3) = none := by
  constructor
  · exact branch_and_bound_neg [((10 : Int), (5 : Int))] (-3) (by decide) (by decide)
  · exact brute_force_neg [((10 : Int), (5 : Int))] (-3) (by decide) (by decide)

/-- Claim C4 as amended: for non-negative items and a negative bound, both
solvers run their search to completion with the all-excluded assignment
(value `0`, cost `0`) as the best found, but the final assertion
`best cost <= bound` then fails (`0 <= bound` is false), so both solvers
abort with an assertion failure (`none`) instead of returning. -/
theorem claim_C4_negative_bound_aborts (options : List (Int × Int)) (bound : Int)
    (hv : ∀ p ∈ options, 0 ≤ p.1) (hc : ∀ p ∈ options, 0 ≤ p.2)
    (hneg : bound < 0) :
    branch_and_bound options bound = none ∧
    brute_force options bound = none ∧
    bnbRun options bound (3 ^ (options.length + 1))
        (expand_branches (List.replicate options.length Entry.unset))
        (List.replicate options.length Entry.excluded, 0, 0) =
      (List.replicate options.length Entry.excluded, 0, 0) ∧
    (all_assignments options.length).foldl (bfStep options bound)
        (List.replicate options.length Entry.excluded, 0, 0) =
      (List.replicate options.length Entry.excluded, 0, 0) ∧
    ¬ ((0 : Int) ≤ bound) :=
  ⟨branch_and_bound_neg options bound hc hneg,
    brute_force_neg options bound hc hneg,
    bnbRun_neg options bound hc hneg _ _ _,
    bfFold_keeps_zero options bound hc hneg _ _ rfl,
    by omega⟩

theorem claim_C4_witness :
    ((∀ p ∈ [((10 : Int), (5 : Int))], 0 ≤ p.1) ∧
      (∀ p ∈ [((10 : Int), (5 : Int))], 0 ≤ p.2) ∧ (-3 : Int) < 0) ∧
    (branch_and_bound [((10 : Int), (5 : Int))] (-3) = none ∧
      brute_force [((10 : Int), (5 : Int))] (-3) = none ∧
      bnbRun [((10 : Int), (5 : Int))] (-3) (3 ^ (1 + 1))
          (expand_branches (List.replicate 1 Entry.unset))
          (List.replicate 1 Entry.excluded, 0, 0) =
        (List.replicate 1 Entry.excluded, 0, 0) ∧
      (all_assignments 1).foldl (bfStep [((10 : Int), (5 : Int))] (-3))
          (List.replicate 1 Entry.excluded, 0, 0) =
        (List.replicate 1 Entry.excluded, 0, 0) ∧
      ¬ ((0 : Int) ≤ (-3 : Int))) :=
  ⟨⟨by decide, by decide, by decide⟩,
    claim_C4_negative_bound_aborts [((10 : Int), (5 : Int))] (-3)
      (by decide) (by decide) (by decide)⟩

/-- Claim C5: for non-negative items and bounds `0 ≤ b1 ≤ b2`, the value
returned by each solver at bound `b1` is at most the value it returns at
bound `b2`. -/
theorem claim_C5_bound_monotone (options : List (Int × Int)) (b1 b2 : Int)
    (hv : ∀ p ∈ options, 0 ≤ p.1) (hc : ∀ p ∈ options, 0 ≤ p.2)
    (h1 : 0 ≤ b1) (h12 : b1 ≤ b2) :
    (∀ r1 r2, branch_and_bound options b1 = some r1 →
      branch_and_bound options b2 = some r2 → r1.2.1 ≤ r2.2.1) ∧
    (∀ r1 r2, brute_force options b1 = some r1 →
      brute_force options b2 = some r2 → r1.2.1 ≤ r2.2.1) := by
  have h2 : 0 ≤ b2 := le_trans h1 h12
  obtain ⟨s1, he1, ho1⟩ := branch_and_bound_spec options b1 hc h1
  obtain ⟨s2, he2, ho2⟩ := branch_and_bound_spec options b2 hc h2
  obtain ⟨t1, hf1, hp1⟩ := brute_force_spec options b1 h1
  obtain ⟨t2, hf2, hp2⟩ := brute_force_spec options b2 h2
  constructor
  · intro r1 r2 hr1 hr2
    rw [he1] at hr1
    rw [he2] at hr2
    cases Option.some.inj hr1
    cases Option.some.inj hr2
    exact optimal_value_mono options b1 b2 h12 s1 s2 ho1 ho2
  · intro r1 r2 hr1 hr2
    rw [hf1] at hr1
    rw [hf2] at hr2
    cases Option.some.inj hr1
    cases Option.some.inj hr2
    exact optimal_value_mono options b1 b2 h12 t1 t2 hp1 hp2

theorem claim_C5_witness :
    ((∀ p ∈ [((10 : Int), (5 : Int))], 0 ≤ p.1) ∧
      (∀ p ∈ [((10 : Int), (5 : Int))], 0 ≤ p.2) ∧
      (0 : Int) ≤ 4 ∧ (4 : Int) ≤ 5 ∧
      branch_and_bound [((10 : Int), (5 : Int))] 4 =
        some ([Entry.excluded], 0, 0) ∧
      branch_and_bound [((10 : Int), (5 : Int))] 5 =
        some ([Entry.included], 10, 5)) ∧
    (0 : Int) ≤ 10 :=
  ⟨⟨by decide, by decide, by decide, by decide, by decide, by decide⟩,
    (claim_C5_bound_monotone [((10 : Int), (5 : Int))] 4 5
        (by decide) (by decide) (by decide) (by decide)).1
      ([Entry.excluded], 0, 0) ([Entry.included], 10, 5)
      (by decide) (by decide)⟩

/-- Claim C6: if an assignment has at least one unset entry,
`expand_branches` returns exactly the two copies of it with the lowest
unset position set to excluded resp. included (in that order); if it has
no unset entry, `expand_branches` returns the empty list. -/
theorem claim_C6_expand_branches (s : List Entry) :
    (Entry.unset ∈ s → ∃ p t, s = p ++ Entry.unset :: t ∧ Entry.unset ∉ p ∧
      expand_branches s =
        [p ++ Entry.excluded :: t, p ++ Entry.included :: t]) ∧
    (Entry.unset ∉ s → expand_branches s = []) :=
  ⟨expand_branches_of_mem s, expand_branches_of_not_mem s⟩

theorem claim_C6_witness :
    (Entry.unset ∈ [Entry.excluded, Entry.unset] ∧
      Entry.unset ∉ [Entry.included]) ∧
    ((∃ p t, [Entry.excluded, Entry.unset] = p ++ Entry.unset :: t ∧
        Entry.unset ∉ p ∧
        expand_branches [Entry.excluded, Entry.unset] =
          [p ++ Entry.excluded :: t, p ++ Entry.included :: t]) ∧
      expand_branches [Entry.included] = []) :=
  ⟨⟨by decide, by decide⟩,
    (claim_C6_expand_branches [Entry.excluded, Entry.unset]).1 (by decide),
    (claim_C6_expand_branches [Entry.included]).2 (by decide)⟩

/-- Claim C7: on same-length inputs, `compute_value` (resp. `compute_cost`)
is the sum of the values (resp. costs) of the items at the included
positions; unset and excluded entries contribute zero and are treated
identically (replacing every unset entry by excluded changes neither
output).  Both functions are pure Lean functions, so equal inputs give
equal outputs and no input is modified. -/
theorem claim_C7_evaluator (s : List Entry) (opts : List (Int × Int))
    (h : s.length = opts.length) :
    compute_value s opts = (∑ i ∈ Finset.range opts.length,
      (if s.getD i Entry.unset = Entry.included
        then (opts.getD i (0, 0)).1 else 0)) ∧
    compute_cost s opts = (∑ i ∈ Finset.range opts.length,
      (if s.getD i Entry.unset = Entry.included
        then (opts.getD i (0, 0)).2 else 0)) ∧
    compute_value (zeroFill s) opts = compute_value s opts ∧
    compute_cost (zeroFill s) opts = compute_cost s opts :=
  ⟨compute_value_eq_sum s opts h, compute_cost_eq_sum s opts h,
    compute_value_zeroFill s opts, compute_cost_zeroFill s opts⟩

theorem claim_C7_witness :
    ([Entry.included, Entry.excluded, Entry.unset].length =
      [((1 : Int), (2 : Int)), (3, 4), (5, 6)].length) ∧
    (compute_value [Entry.included, Entry.excluded, Entry.unset]
        [((1 : Int), (2 : Int)), (3, 4), (5, 6)] =
      (∑ i ∈ Finset.range [((1 : Int), (2 : Int)), (3, 4), (5, 6)].length,
        (if [Entry.included, Entry.excluded, Entry.unset].getD i Entry.unset =
            Entry.included
          then ([((1 : Int), (2 : Int)), (3, 4), (5, 6)].getD i (0, 0)).1
          else 0)) ∧
      compute_cost [Entry.included, Entry.excluded, Entry.unset]
          [((1 : Int), (2 : Int)), (3, 4), (5, 6)] =
        (∑ i ∈ Finset.range [((1 : Int), (2 : Int)), (3, 4), (5, 6)].length,
          (if [Entry.included, Entry.excluded, Entry.unset].getD i Entry.unset =
              Entry.included
            then ([((1 : Int), (2 : Int)), (3, 4), (5, 6)].getD i (0, 0)).2
            else 0)) ∧
      compute_value (zeroFill [Entry.included, Entry.excluded, Entry.unset])
          [((1 : Int), (2 : Int)), (3, 4), (5, 6)] =
        compute_value [Entry.included, Entry.excluded, Entry.unset]
          [((1 : Int), (2 : Int)), (3, 4), (5, 6)] ∧
      compute_cost (zeroFill [Entry.included, Entry.excluded, Entry.unset])
          [((1 : Int), (2 : Int)), (3, 4), (5, 6)] =
        compute_cost [Entry.included, Entry.excluded, Entry.unset]
          [((1 : Int), (2 : Int)), (3, 4), (5, 6)]) :=
  ⟨by decide,
    claim_C7_evaluator [Entry.included, Entry.excluded, Entry.unset]
      [((1 : Int), (2 : Int)), (3, 4), (5, 6)] (by decide)⟩

/-- Claim C8: for non-negative items and a bound at least `0`, if every
single item's cost exceeds the bound then both solvers return the
all-excluded assignment with value `0` and cost `0`; and on the empty item
sequence both solvers return the empty assignment with value `0` and
cost `0` for every bound at least `0`. -/
theorem claim_C8_edge_cases (options : List (Int × Int)) (bound : Int)
    (hv : ∀ p ∈ options, 0 ≤ p.1) (hc : ∀ p ∈ options, 0 ≤ p.2)
    (hb : 0 ≤ bound) (hbig : ∀ p ∈ options, bound < p.2) :
    branch_and_bound options bound =
      some (List.replicate options.length Entry.excluded, 0, 0) ∧
    brute_force options bound =
      some (List.replicate options.length Entry.excluded, 0, 0) ∧
    (∀ b : Int, 0 ≤ b →
      branch_and_bound [] b = some ([], 0, 0) ∧
      brute_force [] b = some ([], 0, 0)) := by
  refine ⟨branch_and_bound_allbig options bound hc hb hbig,
    brute_force_allbig options bound hc hb hbig, ?_⟩
  intro b hb2
  constructor
  · have := branch_and_bound_allbig [] b (by simp) hb2 (by simp)
    simpa using this
  · have := brute_force_allbig [] b (by simp) hb2 (by simp)
    simpa using this

theorem claim_C8_witness :
    ((∀ p ∈ [((10 : Int), (5 : Int))], 0 ≤ p.1) ∧
      (∀ p ∈ [((10 : Int), (5 : Int))], 0 ≤ p.2) ∧
      (0 : Int) ≤ 4 ∧ (∀ p ∈ [((10 : Int), (5 : Int))], (4 : Int) < p.2)) ∧
    (branch_and_bound [((10 : Int), (5 : Int))] 4 =
        some (List.replicate 1 Entry.excluded, 0, 0) ∧
      brute_force [((10 : Int), (5 : Int))] 4 =
        some (List.replicate 1 Entry.excluded, 0, 0) ∧
      (∀ b : Int, 0 ≤ b →
        branch_and_bound [] b = some ([], 0, 0) ∧
        brute_force [] b = some ([], 0, 0))) :=
  ⟨⟨by decide, by decide, by decide, by decide⟩,
    claim_C8_edge_cases [((10 : Int), (5 : Int))] 4
      (by decide) (by decide) (by decide) (by decide)⟩

/-- Claim C9: the branch-and-bound frontier loop terminates.  Each expansion
fixes the lowest unset index, so one level of expansion removes exactly one
unset entry; the decision tree over `n` items has exactly `n` levels with
`2 ^ n` complete leaves at level `n` and nothing below; each loop step
strictly decreases the frontier measure (the termination certificate); and
the loop's result is independent of any fuel at least the measure, so the
fuelled `bnbRun` computes the limit of the Python `while` loop. -/
theorem claim_C9_termination (n : Nat) :
    (branch_levels n n).length = 2 ^ n ∧
    (∀ s ∈ branch_levels n n, unsetCount s = 0) ∧
    branch_levels n (n + 1) = [] ∧
    (∀ k, k ≤ n → ∀ s ∈ branch_levels n k,
      unsetCount s = n - k ∧ s.length = n) ∧
    (∀ s : List Entry,
      branchMeasure (expand_branches s) < 3 ^ unsetCount s) ∧
    (∀ (options : List (Int × Int)) (bound : Int)
      (branches : List (List Entry)) (best : List Entry × Int × Int)
      (fuel1 fuel2 : Nat),
      branchMeasure branches ≤ fuel1 → branchMeasure branches ≤ fuel2 →
      bnbRun options bound fuel1 branches best =
        bnbRun options bound fuel2 branches best) := by
  obtain ⟨hlen, hmem⟩ := branch_levels_spec n n (le_refl n)
  refine ⟨hlen, ?_, branch_levels_empty_succ n,
    fun k hk => (branch_levels_spec n k hk).2,
    expand_branches_measure,
    fun options bound branches best fuel1 fuel2 h1 h2 =>
      bnbRun_fuel_irrel options bound fuel1 fuel2 branches best h1 h2⟩
  intro s hs
  have := (hmem s hs).1
  omega

theorem claim_C9_witness :
    ((1 ≤ 2 ∧ [Entry.excluded, Entry.unset] ∈ branch_levels 2 1) ∧
      branchMeasure [[Entry.unset]] ≤ 5 ∧ branchMeasure [[Entry.unset]] ≤ 7) ∧
    ((branch_levels 2 2).length = 2 ^ 2 ∧
      branch_levels 2 3 = [] ∧
      (unsetCount [Entry.excluded, Entry.unset] = 2 - 1 ∧
        [Entry.excluded, Entry.unset].length = 2) ∧
      branchMeasure (expand_branches [Entry.unset]) < 3 ^ unsetCount [Entry.unset] ∧
      bnbRun [] 0 5 [[Entry.unset]] ([], 0, 0) =
        bnbRun [] 0 7 [[Entry.unset]] ([], 0, 0)) :=
  ⟨⟨⟨by decide, by decide⟩, by decide, by decide⟩,
    (claim_C9_termination 2).1,
    (claim_C9_termination 2).2.2.1,
    (claim_C9_termination 2).2.2.2.1 1 (by decide)
      [Entry.excluded, Entry.unset] (by decide),
    (claim_C9_termination 2).2.2.2.2.1 [Entry.unset],
    (claim_C9_termination 2).2.2.2.2.2 [] 0 [[Entry.unset]] ([], 0, 0) 5 7
      (by decide) (by decide)⟩

/-- Claim C10: in `brute_force`, a candidate accepted through the tie-break
disjunct alone (equal value, strictly smaller cost than the current best)
necessarily has cost within the bound, because the current best's cost is
within the bound and the candidate's cost is strictly smaller; hence every
`bfStep` preserves feasibility of the best found, the whole fold does, and
the initial best (the all-excluded candidate of cost `0`) is feasible. -/
theorem claim_C10_tiebreak_feasible (options : List (Int × Int)) (bound : Int)
    (hc : ∀ p ∈ options, 0 ≤ p.2) (hb : 0 ≤ bound) :
    (∀ (best : List Entry × Int × Int) (a : List Entry),
      best.2.2 ≤ bound →
      compute_value a options = best.2.1 →
      compute_cost a options < best.2.2 →
      compute_cost a options ≤ bound) ∧
    (∀ (best : List Entry × Int × Int) (a : List Entry),
      best.2.2 ≤ bound → (bfStep options bound best a).2.2 ≤ bound) ∧
    (∀ (l : List (List Entry)) (best : List Entry × Int × Int),
      best.2.2 ≤ bound →
      (l.foldl (bfStep options bound) best).2.2 ≤ bound) ∧
    ((List.replicate options.length Entry.excluded,
      (0 : Int), (0 : Int)).2.2 ≤ bound) := by
  refine ⟨?_, fun best a h => bfStep_cost_le options bound best a h,
    bfFold_cost_le options bound, ?_⟩
  · intro best a h1 _ h3
    omega
  · dsimp only
    omega

theorem claim_C10_witness :
    ((∀ p ∈ [((10 : Int), (5 : Int))], 0 ≤ p.2) ∧ (0 : Int) ≤ 5) ∧
    ((∀ (best : List Entry × Int × Int) (a : List Entry),
        best.2.2 ≤ 5 →
        compute_value a [((10 : Int), (5 : Int))] = best.2.1 →
        compute_cost a [((10 : Int), (5 : Int))] < best.2.2 →
        compute_cost a [((10 : Int), (5 : Int))] ≤ 5) ∧
      (∀ (best : List Entry × Int × Int) (a : List Entry),
        best.2.2 ≤ 5 → (bfStep [((10 : Int), (5 : Int))] 5 best a).2.2 ≤ 5) ∧
      (∀ (l : List (List Entry)) (best : List Entry × Int × Int),
        best.2.2 ≤ 5 →
        (l.foldl (bfStep [((10 : Int), (5 : Int))] 5) best).2.2 ≤ 5) ∧
      ((List.replicate 1 Entry.excluded, (0 : Int), (0 : Int)).2.2 ≤ 5)) :=
  ⟨⟨by decide, by decide⟩,
    claim_C10_tiebreak_feasible [((10 : Int), (5 : Int))] 5
      (by decide) (by decide)⟩
